import Mathlib

/-!
Verification of the polygon area-partitioning engine of the `ngesplit`
repository (file `split.js`).  Coordinates are modelled as exact rationals
(`ℚ`); JavaScript numbers are IEEE doubles, but every claim under study is
about the control flow and the exact algebraic structure of the algorithms,
which the rational model renders faithfully.

Conventions of the embedding:
* a ring/polygon is a `List (ℚ × ℚ)` of `[x, y]` pairs, in input order;
* JavaScript array indexing `points[(i + 1) % n]` becomes `List.getD` with
  the same index arithmetic (the default value is never reached for the
  indices the code produces);
* the drivers' `throw` becomes `Except.error` with the thrown message;
* a possibly-non-array `coords` argument is modelled by `CoordsArg`, whose
  `nonArray` constructor stands for any JavaScript value failing
  `Array.isArray`;
* `Math.min(...ys)` / `Math.max(...ys)` are modelled by `listMin`/`listMax`;
  on the empty list JavaScript yields `±Infinity` while the model yields `0`,
  a value that is only ever consumed in loop iterations that cannot run when
  the ring is empty.
-/

/-- A 2D point `[x, y]` with rational coordinates. -/
abbrev Point : Type := ℚ × ℚ

/-- A polygon ring: an ordered list of points. -/
abbrev Pgon : Type := List Point

/-- One term `x1 * y2 - x2 * y1` of the shoelace accumulation in
`shoelaceArea` (`split.js`, `area += x1 * y2 - x2 * y1`). -/
def crossQ (a b : Point) : ℚ := a.1 * b.2 - b.1 * a.2

/-- The signed shoelace sum accumulated by the loop of `shoelaceArea`:
`for (i = 0; i < n; i++) area += x_i * y_{(i+1)%n} - x_{(i+1)%n} * y_i`. -/
def shoelaceSum (points : Pgon) : ℚ :=
  ((List.range points.length).map (fun i =>
    crossQ (points.getD i (0, 0)) (points.getD ((i + 1) % points.length) (0, 0)))).sum

/-- `shoelaceArea` from `split.js`: `Math.abs(area) / 2`. -/
def shoelaceArea (points : Pgon) : ℚ := |shoelaceSum points| / 2

/-- `interpolate` from `split.js`: linear interpolation between two points. -/
def interpolate (p1 p2 : Point) (t : ℚ) : Point :=
  (p1.1 + t * (p2.1 - p1.1), p1.2 + t * (p2.2 - p1.2))

/-- The body of the `for` loop of `clipHorizontal`: the list of points pushed
while scanning the edges, before the closing step.  Each iteration pushes the
vertex `a` when `yMin <= a.y <= yMax`, then the `yMin` intersection when the
edge strictly crosses `yMin`, then the `yMax` intersection when the edge
strictly crosses `yMax`. -/
def clipBody (polygon : Pgon) (yMin yMax : ℚ) : Pgon :=
  (List.range polygon.length).foldl (fun clipped i =>
    let a := polygon.getD i (0, 0)
    let b := polygon.getD ((i + 1) % polygon.length) (0, 0)
    let c1 := if yMin ≤ a.2 ∧ a.2 ≤ yMax then clipped ++ [a] else clipped
    let c2 := if (a.2 < yMin ∧ yMin < b.2) ∨ (yMin < a.2 ∧ b.2 < yMin) then
        c1 ++ [(a.1 + ((yMin - a.2) / (b.2 - a.2)) * (b.1 - a.1), yMin)] else c1
    if (a.2 < yMax ∧ yMax < b.2) ∨ (yMax < a.2 ∧ b.2 < yMax) then
        c2 ++ [(a.1 + ((yMax - a.2) / (b.2 - a.2)) * (b.1 - a.1), yMax)] else c2) []

/-- The closing step at the end of `clipHorizontal`: when the list is nonempty
and its first point differs from its last point, the first point is pushed
again. -/
def closeRing (l : Pgon) : Pgon :=
  match l with
  | [] => []
  | a :: t => if t.getLastD a = a then a :: t else (a :: t) ++ [a]

/-- `clipHorizontal` from `split.js`: scan all edges collecting in-band
vertices and strict boundary intersections, then close the result. -/
def clipHorizontal (polygon : Pgon) (yMin yMax : ℚ) : Pgon :=
  closeRing (clipBody polygon yMin yMax)

/-- The index sequence visited by the JavaScript loop
`for (k = s; k !== e; k = (k + 1) % n)`: it walks `(e + n - s) % n` steps
forward from `s`, wrapping modulo `n`. -/
def cycWalk (n s e : Nat) : List Nat :=
  (List.range ((e + n - s) % n)).map (fun k => (s + k) % n)

/-- `splitAtEdges` from `split.js`: cut the ring at point `ti` along edge `i`
and `tj` along edge `j`, returning the two open sub-rings. -/
def splitAtEdges (polygon : Pgon) (i j : Nat) (ti tj : ℚ) : Pgon × Pgon :=
  let n := polygon.length
  let pci := interpolate (polygon.getD i (0, 0)) (polygon.getD ((i + 1) % n) (0, 0)) ti
  let pcj := interpolate (polygon.getD j (0, 0)) (polygon.getD ((j + 1) % n) (0, 0)) tj
  let poly1 := pci :: (((cycWalk n ((i + 1) % n) ((j + 1) % n)).map
      (fun k => polygon.getD k (0, 0))) ++ [pcj])
  let poly2 := pcj :: (((cycWalk n ((j + 1) % n) ((i + 1) % n)).map
      (fun k => polygon.getD k (0, 0))) ++ [pci])
  (poly1, poly2)

/-- The candidate enumeration of `findOptimalSplit`, in the loop order of the
source: ascending `i`, then `j` (skipping pairs with `|i-j| < 2` or
`|i-j| > n-2`), then `si`, then `sj`, with `si, sj` ranging over
`1, …, steps-1`. -/
def cands (n steps : Nat) : List (Nat × Nat × Nat × Nat) :=
  (List.range n).flatMap (fun i => (List.range n).flatMap (fun j =>
    if 2 ≤ ((i : ℤ) - (j : ℤ)).natAbs ∧ ((((i : ℤ) - (j : ℤ)).natAbs : ℤ) ≤ (n : ℤ) - 2) then
      (List.range' 1 (steps - 1)).flatMap (fun si =>
        (List.range' 1 (steps - 1)).map (fun sj => (i, j, si, sj)))
    else []))

/-- The pair of sub-rings produced for one candidate of `findOptimalSplit`:
`splitAtEdges(polygon, i, j, si / steps, sj / steps)`. -/
def candSplit (polygon : Pgon) (steps : Nat) (c : Nat × Nat × Nat × Nat) : Pgon × Pgon :=
  splitAtEdges polygon c.1 c.2.1 ((c.2.2.1 : ℚ) / (steps : ℚ)) ((c.2.2.2 : ℚ) / (steps : ℚ))

/-- The quantity `diff = Math.abs(area - targetArea)` evaluated for one
candidate of `findOptimalSplit` (the area of the first sub-ring). -/
def candDiff (polygon : Pgon) (target : ℚ) (steps : Nat) (c : Nat × Nat × Nat × Nat) : ℚ :=
  |shoelaceArea (candSplit polygon steps c).1 - target|

/-- The loop of `findOptimalSplit`, processing the candidates in order while
threading the `bestDiff`/`bestSplit` state (`none` stands for the initial
`bestDiff = Infinity`, `bestSplit = null`): the best candidate is updated on
a strictly smaller `diff`, and the loop returns immediately on the first
candidate with `diff < tolerance * targetArea`.  The source updates the best
state just before the early-exit test; since the updated state is only read
when the test fails, the update is placed in the recursive call here. -/
def fosGo (polygon : Pgon) (target tol : ℚ) (steps : Nat) :
    List (Nat × Nat × Nat × Nat) → Option (ℚ × (Pgon × Pgon)) → Option (Pgon × Pgon)
  | [], best => best.map (fun b => b.2)
  | c :: rest, best =>
    if candDiff polygon target steps c < tol * target then some (candSplit polygon steps c)
    else fosGo polygon target tol steps rest
      (match best with
        | none => some (candDiff polygon target steps c, candSplit polygon steps c)
        | some (bd, bs) =>
          if candDiff polygon target steps c < bd
          then some (candDiff polygon target steps c, candSplit polygon steps c)
          else some (bd, bs))

/-- `findOptimalSplit` from `split.js` (the chord search). -/
def findOptimalSplit (polygon : Pgon) (target : ℚ) (steps : Nat) (tol : ℚ) :
    Option (Pgon × Pgon) :=
  fosGo polygon target tol steps (cands polygon.length steps) none

/-- The `coords` argument of the four drivers: either a genuine array of
points, or any JavaScript value failing `Array.isArray`. -/
inductive CoordsArg : Type where
  | arr : Pgon → CoordsArg
  | nonArray : CoordsArg

/-- The peel loop of `splitEqualArea`, indexed by `k = count - i` (the number
of pieces still to produce).  While `k ≥ 2` the loop targets
`remainingArea / (count - i)`, invokes the chord search with the source's
default `steps = 10`, `tolerance = 0.05`, stops on a `null` cut, and always
appends the final remaining ring. -/
def peelGo : Nat → Pgon → List Pgon
  | 0, current => [current]
  | 1, current => [current]
  | k + 2, current =>
    match findOptimalSplit current (shoelaceArea current / ((k + 2 : ℕ) : ℚ)) 10 (5 / 100) with
    | none => [current]
    | some cut => cut.1 :: peelGo (k + 1) cut.2

/-- `splitEqualArea` from `split.js`: validate, then peel `count - 1` pieces
with the chord search. -/
def splitEqualArea (coords : CoordsArg) (count : ℚ) : Except String (List Pgon) :=
  match coords with
  | .nonArray => .error ("Coordinates must be an array")
  | .arr cs =>
    if count ≤ 0 ∨ count.den ≠ 1 then .error ("Count must be positive integer")
    else .ok (peelGo count.num.toNat cs)

/-- `splitByArea` from `split.js`: validate, derive
`count = Math.max(1, Math.round(totalArea / area))`, delegate to
`splitEqualArea`. -/
def splitByArea (coords : CoordsArg) (area : ℚ) : Except String (List Pgon) :=
  match coords with
  | .nonArray => .error ("Coordinates must be an array")
  | .arr cs =>
    if area ≤ 0 then .error ("Area must be positive")
    else splitEqualArea coords (((max 1 (round (shoelaceArea cs / area)) : ℤ) : ℚ))

/-- `Math.min(...ys)` on a nonempty list (the empty case, `+Infinity` in
JavaScript, is modelled by `0`; it is only consumed when the ring is empty
and the peel loop body never runs over it in the settled claims). -/
def listMin : List ℚ → ℚ
  | [] => 0
  | x :: xs => xs.foldl min x

/-- `Math.max(...ys)` on a nonempty list (empty case as in `listMin`). -/
def listMax : List ℚ → ℚ
  | [] => 0
  | x :: xs => xs.foldl max x

/-- The binary search of `splitHorizontalEqualArea`, on remaining fuel
(20 iterations in the source): evaluate `midY = (low + high) / 2`, clip the
remaining ring to `[currentY, midY]`, accept when
`|area - targetArea| < 0.01 * targetArea`, otherwise raise `low` to `midY`
when the area is short and lower `high` to `midY` otherwise. -/
def bsGo (remaining : Pgon) (currentY targetArea : ℚ) : Nat → ℚ → ℚ → Option Pgon
  | 0, _, _ => none
  | fuel + 1, low, high =>
    if |shoelaceArea (clipHorizontal remaining currentY ((low + high) / 2)) - targetArea| <
        (1 / 100) * targetArea
    then some (clipHorizontal remaining currentY ((low + high) / 2))
    else if shoelaceArea (clipHorizontal remaining currentY ((low + high) / 2)) < targetArea
    then bsGo remaining currentY targetArea fuel ((low + high) / 2) high
    else bsGo remaining currentY targetArea fuel low ((low + high) / 2)

/-- The slice accepted by one peel iteration of `splitHorizontalEqualArea`:
the binary-search result when it converged, otherwise the fallback clip to
`[currentY, currentY + (maxY - currentY) / (count - i)]` (the divisor
`count - i` is passed as `den`). -/
def bandSearchSlice (remaining : Pgon) (currentY targetArea maxY den : ℚ) : Pgon :=
  match bsGo remaining currentY targetArea 20 currentY maxY with
  | some s => s
  | none => clipHorizontal remaining currentY (currentY + (maxY - currentY) / den)

/-- The peel loop of `splitHorizontalEqualArea`, indexed by the number `r` of
loop iterations still to run (`r = count - 1 - i`, so `count - i = r + 1` on
entry to an iteration).  Each iteration takes the binary-search slice, or on
failure the fallback clip to `[currentY, currentY + (maxY - currentY) / (count - i)]`;
it then reads the new `currentY` from the *last point* of the accepted slice
and re-clips the remaining ring to `[currentY, maxY]`.  After the loop the
remaining ring is appended when nonempty.  (A JavaScript run would throw on an
empty accepted slice when reading its last point; the model returns the `(0,0)`
default there.) -/
def horizPeelGo (maxY targetArea : ℚ) : Nat → ℚ → Pgon → List Pgon
  | 0, _, remaining => if remaining.length ≠ 0 then [remaining] else []
  | r + 1, currentY, remaining =>
    bandSearchSlice remaining currentY targetArea maxY ((r + 2 : ℕ) : ℚ) ::
      horizPeelGo maxY targetArea r
        ((bandSearchSlice remaining currentY targetArea maxY ((r + 2 : ℕ) : ℚ)).getLastD (0, 0)).2
        (clipHorizontal remaining
          ((bandSearchSlice remaining currentY targetArea maxY
            ((r + 2 : ℕ) : ℚ)).getLastD (0, 0)).2 maxY)

/-- `splitHorizontalEqualArea` from `split.js`: validate, compute the y-range
and the per-piece target, then run the horizontal peel loop from `minY`. -/
def splitHorizontalEqualArea (coords : CoordsArg) (count : ℚ) : Except String (List Pgon) :=
  match coords with
  | .nonArray => .error ("Coordinates must be an array")
  | .arr cs =>
    if count ≤ 0 ∨ count.den ≠ 1 then .error ("Count must be positive integer")
    else
      let ys := cs.map (fun p => p.2)
      let minY := listMin ys
      let maxY := listMax ys
      let targetArea := shoelaceArea cs / count
      .ok (horizPeelGo maxY targetArea (count.num.toNat - 1) minY cs)

/-- `splitHorizontalByArea` from `split.js`: validate, derive the count as in
`splitByArea`, delegate to `splitHorizontalEqualArea`. -/
def splitHorizontalByArea (coords : CoordsArg) (area : ℚ) : Except String (List Pgon) :=
  match coords with
  | .nonArray => .error ("Coordinates must be an array")
  | .arr cs =>
    if area ≤ 0 then .error ("Area must be positive")
    else splitHorizontalEqualArea coords (((max 1 (round (shoelaceArea cs / area)) : ℤ) : ℚ))

/-- Auxiliary for the shoelace lemmas: the sum of `crossQ` over adjacent
pairs of a list, without the wrap-around edge. -/
def adjSum : List Point → ℚ
  | [] => 0
  | [_] => 0
  | p :: q :: t => crossQ p q + adjSum (q :: t)

/-- Auxiliary for the shoelace lemmas: the cyclic shoelace sum in structural
form — adjacent pairs plus the wrap-around term from the last point back to
the first. -/
def cycSum (ps : Pgon) : ℚ :=
  adjSum ps + (match ps.getLast?, ps.head? with
    | some z, some a => crossQ z a
    | _, _ => 0)

/-- The 10 × 10 square used as a concrete input in witnesses. -/
def sqPgon : Pgon := [(0, 0), (10, 0), (10, 10), (0, 10)]

/-- A concrete ring with an edge that reaches a clipping bound exactly at an
endpoint (vertex `(2, 0)` sits on `y = 0` while the previous vertex is
strictly below). -/
def benchPgon : Pgon := [(0, 0), (1, -1), (2, 0)]

/-- A degenerate two-point ring of zero area. -/
def segPgon : Pgon := [(0, 0), (1, 0)]

/-- Claim-side rendering of the clipping rule of C4 (and §4.4 of the spec),
which asks for an inserted intersection point on every edge with one endpoint
strictly below a bound and the other endpoint *at or above* it.  The source
inserts only on strict crossings; this definition exists to be compared with
`clipHorizontal`. -/
def clipHorizontalClaimed (polygon : Pgon) (yMin yMax : ℚ) : Pgon :=
  closeRing ((List.range polygon.length).foldl (fun clipped i =>
    let a := polygon.getD i (0, 0)
    let b := polygon.getD ((i + 1) % polygon.length) (0, 0)
    let c1 := if yMin ≤ a.2 ∧ a.2 ≤ yMax then clipped ++ [a] else clipped
    let c2 := if (a.2 < yMin ∧ yMin ≤ b.2) ∨ (b.2 < yMin ∧ yMin ≤ a.2) then
        c1 ++ [(a.1 + ((yMin - a.2) / (b.2 - a.2)) * (b.1 - a.1), yMin)] else c1
    if (a.2 < yMax ∧ yMax ≤ b.2) ∨ (b.2 < yMax ∧ yMax ≤ a.2) then
        c2 ++ [(a.1 + ((yMax - a.2) / (b.2 - a.2)) * (b.1 - a.1), yMax)] else c2) [])

/-! ## Helper lemmas -/

lemma peelGo_len : ∀ (k : Nat) (cur : Pgon),
    1 ≤ (peelGo k cur).length ∧ (peelGo k cur).length ≤ max 1 k
  | 0, cur => by simp [peelGo]
  | 1, cur => by simp [peelGo]
  | k + 2, cur => by
    rcases h : findOptimalSplit cur (shoelaceArea cur / ((k + 2 : ℕ) : ℚ)) 10 (5 / 100)
      with _ | cut
    · simp only [peelGo]
      rw [h]
      simp
    · have ih := peelGo_len (k + 1) cut.2
      simp only [peelGo]
      rw [h]
      simp only [List.length_cons]
      omega

lemma peelGo_concat : ∀ (k : Nat) (cur : Pgon), ∃ pre last, peelGo k cur = pre ++ [last]
  | 0, cur => ⟨[], cur, rfl⟩
  | 1, cur => ⟨[], cur, rfl⟩
  | k + 2, cur => by
    rcases h : findOptimalSplit cur (shoelaceArea cur / ((k + 2 : ℕ) : ℚ)) 10 (5 / 100)
      with _ | cut
    · exact ⟨[], cur, by simp only [peelGo]; rw [h]; rfl⟩
    · obtain ⟨pre, lst, hp⟩ := peelGo_concat (k + 1) cut.2
      refine ⟨cut.1 :: pre, lst, ?_⟩
      simp only [peelGo]
      rw [h]
      show cut.1 :: peelGo (k + 1) cut.2 = _
      rw [hp]
      rfl

lemma peelGo_two_eq (k : Nat) (cur : Pgon) : peelGo (k + 2) cur =
    match findOptimalSplit cur (shoelaceArea cur / ((k + 2 : ℕ) : ℚ)) 10 (5 / 100) with
    | none => [cur]
    | some cut => cut.1 :: peelGo (k + 1) cut.2 := by
  rfl

/-! ## Claim theorems -/

/-- C9: for every ring with fewer than 3 points (including the empty ring),
`shoelaceArea` returns 0 (and, being a total function of the points, raises
no exception). -/
theorem C9_shoelaceArea_degenerate (ps : Pgon) (h : ps.length < 3) : shoelaceArea ps = 0 := by
  match ps, h with
  | [], _ => simp [shoelaceArea, shoelaceSum]
  | [p], _ =>
    have hz : shoelaceSum [p] = 0 := by
      simp [shoelaceSum, List.range_succ, crossQ]
    simp [shoelaceArea, hz]
  | [p, q], _ =>
    have hz : shoelaceSum [p, q] = 0 := by
      norm_num [shoelaceSum, List.range_succ, crossQ]
      try ring
    simp [shoelaceArea, hz]

/-- Witness for C9 at the concrete two-point ring `segPgon`. -/
theorem C9_shoelaceArea_degenerate_witness : shoelaceArea segPgon = 0 :=
  C9_shoelaceArea_degenerate segPgon (by norm_num [segPgon])

/-- C5: every driver validates before any geometry work.  `splitEqualArea`
and `splitHorizontalEqualArea` fail on a non-array `coords` and on a
non-positive or non-integer `count`; `splitByArea` and
`splitHorizontalByArea` fail on a non-array `coords` and on a non-positive
`area`; in each case the call returns the descriptive error immediately and
carries no partial output. -/
theorem C5_drivers_validate (cs : Pgon) (c a : ℚ) :
    splitEqualArea .nonArray c = .error ("Coordinates must be an array") ∧
    splitHorizontalEqualArea .nonArray c = .error ("Coordinates must be an array") ∧
    splitByArea .nonArray a = .error ("Coordinates must be an array") ∧
    splitHorizontalByArea .nonArray a = .error ("Coordinates must be an array") ∧
    (c ≤ 0 ∨ c.den ≠ 1 →
      splitEqualArea (.arr cs) c = .error ("Count must be positive integer")) ∧
    (c ≤ 0 ∨ c.den ≠ 1 →
      splitHorizontalEqualArea (.arr cs) c = .error ("Count must be positive integer")) ∧
    (a ≤ 0 → splitByArea (.arr cs) a = .error ("Area must be positive")) ∧
    (a ≤ 0 → splitHorizontalByArea (.arr cs) a = .error ("Area must be positive")) := by
  refine ⟨rfl, rfl, rfl, rfl, ?_, ?_, ?_, ?_⟩
  · intro h; simp only [splitEqualArea]; rw [if_pos h]
  · intro h; simp only [splitHorizontalEqualArea]; rw [if_pos h]
  · intro h; simp only [splitByArea]; rw [if_pos h]
  · intro h; simp only [splitHorizontalByArea]; rw [if_pos h]

/-- Witness for C5: `count = 0`, a non-integer `count = 1/2`, and
`area = 0` all fail with the expected messages. -/
theorem C5_drivers_validate_witness :
    splitEqualArea (.arr []) 0 = .error ("Count must be positive integer") ∧
    splitEqualArea (.arr []) (1 / 2) = .error ("Count must be positive integer") ∧
    splitByArea (.arr []) 0 = .error ("Area must be positive") :=
  ⟨(C5_drivers_validate [] 0 0).2.2.2.2.1 (Or.inl le_rfl),
   (C5_drivers_validate [] (1 / 2) 0).2.2.2.2.1 (Or.inr (by norm_num)),
   (C5_drivers_validate [] 0 0).2.2.2.2.2.2.1 le_rfl⟩

/-- C10 counterexample: on the empty array ring with `count = 1`,
`splitHorizontalEqualArea` returns an empty list of pieces, not the
one-element list `[coords]` asserted by the claim (the final
`if (remaining.length > 0)` guard drops the empty remaining ring). -/
theorem C10_count1_empty_horizontal_cex :
    splitHorizontalEqualArea (.arr ([] : Pgon)) 1 = .ok [] ∧
    Except.ok ([] : List Pgon) ≠ (.ok [([] : Pgon)] : Except String (List Pgon)) := by
  constructor
  · have hval : ¬((1 : ℚ) ≤ 0 ∨ (1 : ℚ).den ≠ 1) := by norm_num
    simp only [splitHorizontalEqualArea]
    rw [if_neg hval]
    simp [horizPeelGo]
  · simp

/-- C10 amended: with `count = 1` the peel loops run zero iterations;
`splitEqualArea` returns exactly `[coords]` for every array `coords`, and
`splitHorizontalEqualArea` returns `[coords]` for every nonempty array
`coords` (the empty ring yields `[]` instead). -/
theorem C10_count1_amended (cs : Pgon) :
    splitEqualArea (.arr cs) 1 = .ok [cs] ∧
    (cs ≠ [] → splitHorizontalEqualArea (.arr cs) 1 = .ok [cs]) := by
  have hval : ¬((1 : ℚ) ≤ 0 ∨ (1 : ℚ).den ≠ 1) := by norm_num
  constructor
  · simp only [splitEqualArea]
    rw [if_neg hval]
    rfl
  · intro hne
    simp only [splitHorizontalEqualArea]
    rw [if_neg hval]
    have hlen : cs.length ≠ 0 := by simpa [List.length_eq_zero] using hne
    simp [horizPeelGo, hlen]

/-- Witness for C10 (amended) at a concrete one-point ring. -/
theorem C10_count1_amended_witness :
    splitEqualArea (.arr [((0 : ℚ), (0 : ℚ))]) 1 = .ok [[(0, 0)]] ∧
    splitHorizontalEqualArea (.arr [((0 : ℚ), (0 : ℚ))]) 1 = .ok [[(0, 0)]] :=
  ⟨(C10_count1_amended [(0, 0)]).1, (C10_count1_amended [(0, 0)]).2 (by simp)⟩

/-- C6: for a valid array ring and positive integer count, `splitEqualArea`
returns `Except.ok` (never an error after validation) with between 1 and
`count` pieces; each peel iteration targets `remainingArea / (count - i)` and
stops early when the chord search returns no cut, and the final remaining
ring is always the last appended element. -/
theorem C6_splitEqualArea_total (cs : Pgon) (c : ℚ) (hc : 0 < c) (hden : c.den = 1) :
    ∃ parts, splitEqualArea (.arr cs) c = .ok parts ∧
      1 ≤ parts.length ∧ (parts.length : ℤ) ≤ c.num ∧
      (∃ pre lst, parts = pre ++ [lst]) ∧
      (∀ k cur, peelGo (k + 2) cur =
        match findOptimalSplit cur (shoelaceArea cur / ((k + 2 : ℕ) : ℚ)) 10 (5 / 100) with
        | none => [cur]
        | some cut => cut.1 :: peelGo (k + 1) cut.2) := by
  have hval : ¬(c ≤ 0 ∨ c.den ≠ 1) := not_or.mpr ⟨not_le.mpr hc, by simp [hden]⟩
  refine ⟨peelGo c.num.toNat cs, ?_, (peelGo_len _ _).1, ?_, peelGo_concat _ _,
    fun k cur => peelGo_two_eq k cur⟩
  · simp only [splitEqualArea]
    rw [if_neg hval]
  · have h2 := (peelGo_len c.num.toNat cs).2
    have hnum : 0 < c.num := Rat.num_pos.mpr hc
    omega

/-- Witness for C6 at the square with `count = 2`. -/
theorem C6_splitEqualArea_total_witness :
    (0 : ℚ) < 2 ∧ (2 : ℚ).den = 1 ∧
    ∃ parts, splitEqualArea (.arr sqPgon) 2 = .ok parts ∧ 1 ≤ parts.length := by
  obtain ⟨parts, h1, h2, _⟩ := C6_splitEqualArea_total sqPgon 2 (by norm_num) rfl
  exact ⟨by norm_num, rfl, parts, h1, h2⟩

/-- C7: for every array ring and positive target area, `splitByArea`
delegates to `splitEqualArea` with `count = max(1, round(totalArea / area))`,
and the number of produced pieces never exceeds that derived count. -/
theorem C7_splitByArea_delegates (cs : Pgon) (a : ℚ) (ha : 0 < a) :
    splitByArea (.arr cs) a =
      splitEqualArea (.arr cs) (((max 1 (round (shoelaceArea cs / a)) : ℤ) : ℚ)) ∧
    ∀ parts, splitByArea (.arr cs) a = .ok parts →
      (parts.length : ℤ) ≤ max 1 (round (shoelaceArea cs / a)) := by
  have heq : splitByArea (.arr cs) a =
      splitEqualArea (.arr cs) (((max 1 (round (shoelaceArea cs / a)) : ℤ) : ℚ)) := by
    simp only [splitByArea]
    rw [if_neg (not_le.mpr ha)]
  refine ⟨heq, fun parts hp => ?_⟩
  rw [heq] at hp
  set m : ℤ := max 1 (round (shoelaceArea cs / a)) with hm
  have hm1 : (1 : ℤ) ≤ m := le_max_left _ _
  have hpos : (0 : ℚ) < (m : ℚ) := by exact_mod_cast (by omega : (0 : ℤ) < m)
  have hval : ¬((m : ℚ) ≤ 0 ∨ ((m : ℤ) : ℚ).den ≠ 1) :=
    not_or.mpr ⟨not_le.mpr hpos, by simp [Rat.den_intCast]⟩
  simp only [splitEqualArea] at hp
  rw [if_neg hval] at hp
  injection hp with hp'
  have hlen := (peelGo_len ((m : ℤ) : ℚ).num.toNat cs).2
  rw [hp'] at hlen
  rw [Rat.num_intCast] at hlen
  omega

/-- Witness for C7 at the square with target area 50. -/
theorem C7_splitByArea_delegates_witness :
    splitByArea (.arr sqPgon) 50 =
      splitEqualArea (.arr sqPgon) (((max 1 (round (shoelaceArea sqPgon / 50)) : ℤ) : ℚ)) :=
  (C7_splitByArea_delegates sqPgon 50 (by norm_num)).1

lemma crossQ_self (p : Point) : crossQ p p = 0 := by simp [crossQ]

lemma crossQ_comm (p q : Point) : crossQ q p = -crossQ p q := by
  simp only [crossQ]
  ring

lemma getD_length_cons : ∀ (t : List Point) (a : Point),
    (a :: t).getD t.length (0, 0) = t.getLastD a
  | [], a => rfl
  | b :: t', a => by
    have ih := getD_length_cons t' b
    rw [List.getLastD_cons]
    exact ih

lemma getLast?_cons_eq : ∀ (t : List Point) (a : Point),
    (a :: t).getLast? = some (t.getLastD a)
  | [], a => rfl
  | b :: t', a => by
    have ih := getLast?_cons_eq t' b
    rw [List.getLast?_cons_cons, List.getLastD_cons]
    exact ih

lemma adjSum_eq_range : ∀ ps : Pgon,
    ((List.range (ps.length - 1)).map
      (fun i => crossQ (ps.getD i (0, 0)) (ps.getD (i + 1) (0, 0)))).sum = adjSum ps
  | [] => by simp [adjSum]
  | [p] => by simp [adjSum]
  | p :: q :: t => by
    have ih := adjSum_eq_range (q :: t)
    simp only [List.length_cons, Nat.add_sub_cancel, List.range_succ_eq_map, List.map_cons,
      List.map_map, List.sum_cons, adjSum]
    simp only [List.length_cons, Nat.add_sub_cancel] at ih
    congr 1

lemma shoelaceSum_eq_cycSum : ∀ ps : Pgon, shoelaceSum ps = cycSum ps
  | [] => by simp [shoelaceSum, cycSum, adjSum]
  | a :: t => by
    have hlen : (a :: t).length = t.length + 1 := rfl
    simp only [shoelaceSum, hlen, List.range_succ, List.map_append, List.sum_append,
      List.map_cons, List.map_nil, List.sum_cons, List.sum_nil]
    have hwrap : (t.length + 1) % (t.length + 1) = 0 := Nat.mod_self _
    rw [hwrap]
    have hcongr : (List.range t.length).map
        (fun i => crossQ ((a :: t).getD i (0, 0))
          ((a :: t).getD ((i + 1) % (t.length + 1)) (0, 0))) =
        (List.range t.length).map
          (fun i => crossQ ((a :: t).getD i (0, 0)) ((a :: t).getD (i + 1) (0, 0))) := by
      refine List.map_congr_left (fun i hi => ?_)
      rw [Nat.mod_eq_of_lt (by simpa using List.mem_range.mp hi)]
    rw [hcongr]
    have hadj := adjSum_eq_range (a :: t)
    simp only [List.length_cons, Nat.add_sub_cancel] at hadj
    rw [hadj, getD_length_cons, cycSum, getLast?_cons_eq]
    show adjSum (a :: t) + (crossQ (t.getLastD a) a + 0) = adjSum (a :: t) + crossQ (t.getLastD a) a
    ring

lemma adjSum_append_last : ∀ (u : List Point) (p : Point),
    adjSum (u ++ [p]) = adjSum u +
      (match u.getLast? with
        | none => 0
        | some z => crossQ z p)
  | [], p => by simp [adjSum]
  | [x], p => by simp [adjSum]
  | x :: y :: u', p => by
    have ih := adjSum_append_last (y :: u') p
    have h1 : adjSum ((x :: y :: u') ++ [p]) = crossQ x y + adjSum ((y :: u') ++ [p]) := rfl
    have h2 : adjSum (x :: y :: u') = crossQ x y + adjSum (y :: u') := rfl
    rw [h1, ih, h2, List.getLast?_cons_cons]
    ring

lemma adjSum_concat_cons (x : Point) (u : List Point) (p : Point) :
    adjSum ((x :: u) ++ [p]) = adjSum (x :: u) + crossQ (u.getLastD x) p := by
  rw [adjSum_append_last, getLast?_cons_eq]

lemma adjSum_reverse : ∀ l : List Point, adjSum l.reverse = -adjSum l
  | [] => by simp [adjSum]
  | p :: t => by
    have ih := adjSum_reverse t
    rw [List.reverse_cons, adjSum_append_last, ih, List.getLast?_reverse]
    cases t with
    | nil => simp [adjSum]
    | cons q t' =>
      simp only [List.head?_cons, adjSum]
      rw [crossQ_comm q p]
      ring

lemma cycSum_reverse (l : Pgon) : cycSum l.reverse = -cycSum l := by
  cases l with
  | nil => simp [cycSum, adjSum]
  | cons a t =>
    simp only [cycSum, adjSum_reverse, List.getLast?_reverse, List.head?_reverse,
      List.head?_cons, getLast?_cons_eq]
    rw [crossQ_comm (t.getLastD a) a]
    ring

lemma cycSum_rotate_one (l : Pgon) : cycSum (l.rotate 1) = cycSum l := by
  cases l with
  | nil => simp
  | cons a t =>
    rw [List.rotate_cons_succ, List.rotate_zero]
    cases t with
    | nil => simp
    | cons b t' =>
      have h2 : adjSum (a :: b :: t') = crossQ a b + adjSum (b :: t') := rfl
      simp only [List.cons_append, cycSum, getLast?_cons_eq, List.head?_cons,
        List.getLastD_concat, List.getLastD_cons]
      rw [show adjSum (b :: (t' ++ [a])) = adjSum ((b :: t') ++ [a]) from rfl,
        adjSum_concat_cons, h2]
      ring

lemma cycSum_rotate (l : Pgon) (k : Nat) : cycSum (l.rotate k) = cycSum l := by
  induction k generalizing l with
  | zero => rw [List.rotate_zero]
  | succ n ih =>
    have : l.rotate (n + 1) = (l.rotate 1).rotate n := by
      rw [List.rotate_rotate]
      ring_nf
    rw [this, ih (l.rotate 1), cycSum_rotate_one]

/-- C8: `shoelaceArea` is invariant under reversal of the vertex order and
under cyclic rotation of the starting vertex, and is always non-negative. -/
theorem C8_shoelaceArea_invariance (ps : Pgon) (k : Nat) :
    shoelaceArea ps.reverse = shoelaceArea ps ∧
    shoelaceArea (ps.rotate k) = shoelaceArea ps ∧
    0 ≤ shoelaceArea ps := by
  refine ⟨?_, ?_, ?_⟩
  · simp only [shoelaceArea, shoelaceSum_eq_cycSum, cycSum_reverse, abs_neg]
  · simp only [shoelaceArea, shoelaceSum_eq_cycSum, cycSum_rotate]
  · have := abs_nonneg (shoelaceSum ps)
    simp only [shoelaceArea]
    linarith

lemma cands_mem (n steps : Nat) (c : Nat × Nat × Nat × Nat) (hc : c ∈ cands n steps) :
    c.1 < n ∧ c.2.1 < n ∧ 2 ≤ ((c.1 : ℤ) - (c.2.1 : ℤ)).natAbs ∧
    (((c.1 : ℤ) - (c.2.1 : ℤ)).natAbs : ℤ) ≤ (n : ℤ) - 2 ∧
    1 ≤ c.2.2.1 ∧ c.2.2.1 < steps ∧ 1 ≤ c.2.2.2 ∧ c.2.2.2 < steps := by
  simp only [cands, List.mem_flatMap, List.mem_range] at hc
  obtain ⟨i, hi, j, hj, hc⟩ := hc
  by_cases hcond : 2 ≤ ((i : ℤ) - (j : ℤ)).natAbs ∧
      ((((i : ℤ) - (j : ℤ)).natAbs : ℤ) ≤ (n : ℤ) - 2)
  · rw [if_pos hcond] at hc
    simp only [List.mem_flatMap, List.mem_map, List.mem_range'_1] at hc
    obtain ⟨si, hsi, sj, hsj, hceq⟩ := hc
    subst hceq
    refine ⟨hi, hj, hcond.1, hcond.2, ?_, ?_, ?_, ?_⟩ <;> (dsimp only; omega)
  · rw [if_neg hcond] at hc
    simp at hc

lemma fosGo_first_accept (polygon : Pgon) (target tol : ℚ) (steps : Nat) :
    ∀ (l1 : List (Nat × Nat × Nat × Nat)) (c : Nat × Nat × Nat × Nat)
      (l2 : List (Nat × Nat × Nat × Nat)) (best : Option (ℚ × (Pgon × Pgon))),
      (∀ c' ∈ l1, ¬ candDiff polygon target steps c' < tol * target) →
      candDiff polygon target steps c < tol * target →
      fosGo polygon target tol steps (l1 ++ c :: l2) best = some (candSplit polygon steps c)
  | [], c, l2, best, _, hc => by
    simp only [List.nil_append, fosGo]
    rw [if_pos hc]
  | a :: l1', c, l2, best, h1, hc => by
    simp only [List.cons_append, fosGo]
    rw [if_neg (h1 a (by simp))]
    exact fosGo_first_accept polygon target tol steps l1' c l2 _
      (fun c' h => h1 c' (by simp [h])) hc

lemma fosGo_no_accept (polygon : Pgon) (target tol : ℚ) (steps : Nat) :
    ∀ (l : List (Nat × Nat × Nat × Nat)) (best : Option (ℚ × (Pgon × Pgon))),
      (∀ c ∈ l, ¬ candDiff polygon target steps c < tol * target) →
      ∀ pr, fosGo polygon target tol steps l best = some pr →
        ∃ d, (best = some (d, pr) ∨
            ∃ c ∈ l, d = candDiff polygon target steps c ∧ pr = candSplit polygon steps c) ∧
          (∀ c' ∈ l, d ≤ candDiff polygon target steps c') ∧
          (∀ d0 s0, best = some (d0, s0) → d ≤ d0)
  | [], best, _, pr, hres => by
    cases best with
    | none => simp [fosGo] at hres
    | some b =>
      obtain ⟨bd, bs⟩ := b
      have hb : bs = pr := by simpa [fosGo] using hres
      subst hb
      refine ⟨bd, Or.inl rfl, by simp, fun d0 s0 h0 => ?_⟩
      injection h0 with h1
      injection h1 with h2 h3
      rw [h2]
  | c :: rest, best, h, pr, hres => by
    have hc : ¬ candDiff polygon target steps c < tol * target := h c (by simp)
    simp only [fosGo] at hres
    rw [if_neg hc] at hres
    cases best with
    | none =>
      obtain ⟨d, hd1, hd2, hd3⟩ := fosGo_no_accept polygon target tol steps rest
        (some (candDiff polygon target steps c, candSplit polygon steps c))
        (fun c' h' => h c' (by simp [h'])) pr hres
      have hdc : d ≤ candDiff polygon target steps c := hd3 _ _ rfl
      refine ⟨d, ?_, ?_, by simp⟩
      · rcases hd1 with h' | ⟨c', hc', hdc', hprc'⟩
        · have h2 := Option.some.inj h'
          exact Or.inr ⟨c, by simp,
            (congrArg Prod.fst h2).symm, (congrArg Prod.snd h2).symm⟩
        · exact Or.inr ⟨c', by simp [hc'], hdc', hprc'⟩
      · intro c' hc'
        rcases List.mem_cons.mp hc' with h' | h'
        · rw [h']; exact hdc
        · exact hd2 c' h'
    | some b =>
      obtain ⟨bd, bs⟩ := b
      by_cases hlt : candDiff polygon target steps c < bd
      · rw [show (match some (bd, bs) with
            | none => some (candDiff polygon target steps c, candSplit polygon steps c)
            | some (bd, bs) =>
              if candDiff polygon target steps c < bd
              then some (candDiff polygon target steps c, candSplit polygon steps c)
              else some (bd, bs)) =
            some (candDiff polygon target steps c, candSplit polygon steps c) by
          simp [hlt]] at hres
        obtain ⟨d, hd1, hd2, hd3⟩ := fosGo_no_accept polygon target tol steps rest
          (some (candDiff polygon target steps c, candSplit polygon steps c))
          (fun c' h' => h c' (by simp [h'])) pr hres
        have hdc : d ≤ candDiff polygon target steps c := hd3 _ _ rfl
        refine ⟨d, ?_, ?_, ?_⟩
        · rcases hd1 with h' | ⟨c', hc', hdc', hprc'⟩
          · have h2 := Option.some.inj h'
            exact Or.inr ⟨c, by simp,
              (congrArg Prod.fst h2).symm, (congrArg Prod.snd h2).symm⟩
          · exact Or.inr ⟨c', by simp [hc'], hdc', hprc'⟩
        · intro c' hc'
          rcases List.mem_cons.mp hc' with h' | h'
          · rw [h']; exact hdc
          · exact hd2 c' h'
        · intro d0 s0 h0
          injection h0 with h1
          injection h1 with h2 h3
          rw [← h2]
          exact le_of_lt (lt_of_le_of_lt hdc hlt)
      · rw [show (match some (bd, bs) with
            | none => some (candDiff polygon target steps c, candSplit polygon steps c)
            | some (bd, bs) =>
              if candDiff polygon target steps c < bd
              then some (candDiff polygon target steps c, candSplit polygon steps c)
              else some (bd, bs)) = some (bd, bs) by
          simp [hlt]] at hres
        obtain ⟨d, hd1, hd2, hd3⟩ := fosGo_no_accept polygon target tol steps rest
          (some (bd, bs)) (fun c' h' => h c' (by simp [h'])) pr hres
        have hdb : d ≤ bd := hd3 bd bs rfl
        refine ⟨d, ?_, ?_, ?_⟩
        · rcases hd1 with h' | ⟨c', hc', hdc', hprc'⟩
          · exact Or.inl h'
          · exact Or.inr ⟨c', by simp [hc'], hdc', hprc'⟩
        · intro c' hc'
          rcases List.mem_cons.mp hc' with h' | h'
          · rw [h']
            exact le_trans hdb (not_lt.mp hlt)
          · exact hd2 c' h'
        · intro d0 s0 h0
          injection h0 with h1
          injection h1 with h2 h3
          rw [← h2]
          exact hdb

lemma fosGo_isSome (polygon : Pgon) (target tol : ℚ) (steps : Nat) :
    ∀ (l : List (Nat × Nat × Nat × Nat)) (best : Option (ℚ × (Pgon × Pgon))),
      (best.isSome ∨ l ≠ []) → (fosGo polygon target tol steps l best).isSome
  | [], best, h => by
    rcases h with h | h
    · simpa [fosGo] using h
    · simp at h
  | c :: rest, best, _ => by
    simp only [fosGo]
    by_cases hacc : candDiff polygon target steps c < tol * target
    · rw [if_pos hacc]; rfl
    · rw [if_neg hacc]
      refine fosGo_isSome polygon target tol steps rest _ (Or.inl ?_)
      cases best with
      | none => rfl
      | some b =>
        obtain ⟨bd, bs⟩ := b
        by_cases hlt : candDiff polygon target steps c < bd <;> simp [hlt]

/-- C1: the chord search enumerates only candidates `(i, j, si, sj)` with
`2 ≤ |i-j| ≤ n-2` and `1 ≤ si, sj ≤ steps-1` (fractions `si/steps`,
`sj/steps`); it returns the pair of sub-rings of the first candidate in
ascending iteration order whose first-piece area is within
`tolerance × target`; when no candidate is within tolerance it returns a
split realizing the minimal `|area - target|` seen over the full
enumeration, and it returns a result whenever any candidate exists. -/
theorem C1_findOptimalSplit_spec (polygon : Pgon) (target tol : ℚ) (steps : Nat) :
    (∀ c ∈ cands polygon.length steps,
      c.1 < polygon.length ∧ c.2.1 < polygon.length ∧
      2 ≤ ((c.1 : ℤ) - (c.2.1 : ℤ)).natAbs ∧
      (((c.1 : ℤ) - (c.2.1 : ℤ)).natAbs : ℤ) ≤ (polygon.length : ℤ) - 2 ∧
      1 ≤ c.2.2.1 ∧ c.2.2.1 < steps ∧ 1 ≤ c.2.2.2 ∧ c.2.2.2 < steps) ∧
    (∀ l1 c l2, cands polygon.length steps = l1 ++ c :: l2 →
      (∀ c' ∈ l1, ¬ candDiff polygon target steps c' < tol * target) →
      candDiff polygon target steps c < tol * target →
      findOptimalSplit polygon target steps tol = some (candSplit polygon steps c)) ∧
    ((∀ c ∈ cands polygon.length steps, ¬ candDiff polygon target steps c < tol * target) →
      ∀ pr, findOptimalSplit polygon target steps tol = some pr →
        ∃ c ∈ cands polygon.length steps, pr = candSplit polygon steps c ∧
          ∀ c' ∈ cands polygon.length steps,
            candDiff polygon target steps c ≤ candDiff polygon target steps c') ∧
    (cands polygon.length steps ≠ [] →
      ∃ pr, findOptimalSplit polygon target steps tol = some pr) := by
  refine ⟨fun c hc => cands_mem _ _ c hc, ?_, ?_, ?_⟩
  · intro l1 c l2 hsplit h1 hc2
    unfold findOptimalSplit
    rw [hsplit]
    exact fosGo_first_accept polygon target tol steps l1 c l2 none h1 hc2
  · intro hnone pr hpr
    obtain ⟨d, hd1, hd2, _⟩ := fosGo_no_accept polygon target tol steps
      (cands polygon.length steps) none hnone pr hpr
    rcases hd1 with h' | ⟨c, hcmem, hdc, hprc⟩
    · exact absurd h' (by simp)
    · exact ⟨c, hcmem, hprc, fun c' hc' => by rw [← hdc]; exact hd2 c' hc'⟩
  · intro hne
    have h := fosGo_isSome polygon target tol steps (cands polygon.length steps) none
      (Or.inr hne)
    exact Option.isSome_iff_exists.mp h

/-- Witness for C1: on the square with target 50, the very first enumerated
candidate `(i, j, si, sj) = (0, 2, 1, 1)` is within tolerance, and the chord
search returns its split. -/
theorem C1_findOptimalSplit_spec_witness :
    findOptimalSplit sqPgon 50 10 (5 / 100) = some (candSplit sqPgon 10 (0, 2, 1, 1)) :=
  (C1_findOptimalSplit_spec sqPgon 50 (5 / 100) 10).2.1 [] (0, 2, 1, 1) ((cands 4 10).tail)
    (by rfl) (by simp)
    (by norm_num [candDiff, candSplit, splitAtEdges, cycWalk, interpolate, shoelaceArea,
      shoelaceSum, crossQ, sqPgon, List.range_succ, List.getD])

lemma bsGo_sound (rem : Pgon) (cy t : ℚ) :
    ∀ (fuel : Nat) (low high : ℚ), low ≤ high →
      ∀ s, bsGo rem cy t fuel low high = some s →
        ∃ y, low ≤ y ∧ y ≤ high ∧ s = clipHorizontal rem cy y ∧
          |shoelaceArea (clipHorizontal rem cy y) - t| < (1 / 100) * t
  | 0, low, high, _, s, hres => by simp [bsGo] at hres
  | fuel + 1, low, high, hlh, s, hres => by
    simp only [bsGo] at hres
    by_cases hacc : |shoelaceArea (clipHorizontal rem cy ((low + high) / 2)) - t| <
        (1 / 100) * t
    · rw [if_pos hacc] at hres
      have hs := Option.some.inj hres
      exact ⟨(low + high) / 2, by linarith, by linarith, hs.symm, hacc⟩
    · rw [if_neg hacc] at hres
      by_cases hlt : shoelaceArea (clipHorizontal rem cy ((low + high) / 2)) < t
      · rw [if_pos hlt] at hres
        obtain ⟨y, h1, h2, h3, h4⟩ := bsGo_sound rem cy t fuel ((low + high) / 2) high
          (by linarith) s hres
        exact ⟨y, by linarith, h2, h3, h4⟩
      · rw [if_neg hlt] at hres
        obtain ⟨y, h1, h2, h3, h4⟩ := bsGo_sound rem cy t fuel low ((low + high) / 2)
          (by linarith) s hres
        exact ⟨y, h1, by linarith, h3, h4⟩

lemma bsGo_step (rem : Pgon) (cy t : ℚ) (fuel : Nat) (low high : ℚ) :
    bsGo rem cy t (fuel + 1) low high =
      if |shoelaceArea (clipHorizontal rem cy ((low + high) / 2)) - t| < (1 / 100) * t
      then some (clipHorizontal rem cy ((low + high) / 2))
      else if shoelaceArea (clipHorizontal rem cy ((low + high) / 2)) < t
      then bsGo rem cy t fuel ((low + high) / 2) high
      else bsGo rem cy t fuel low ((low + high) / 2) := rfl

lemma bandSearchSlice_of_none (rem : Pgon) (cy t maxY den : ℚ)
    (hnone : bsGo rem cy t 20 cy maxY = none) :
    bandSearchSlice rem cy t maxY den = clipHorizontal rem cy (cy + (maxY - cy) / den) := by
  unfold bandSearchSlice
  rw [hnone]

/-- C3: in each peel iteration of `splitHorizontalEqualArea` the band search
runs at most 20 iterations (fuel 20, exhaustion yields `none`); every
accepted slice is the ring clipped to `[currentY, y]` for some
`y ∈ [low, high]` with `|area - target| < 0.01 × target`; each non-accepting
iteration evaluates `mid = (low + high)/2` and raises `low` to `mid` when the
area is short, lowering `high` to `mid` otherwise; and when the search
exhausts, the band used by the iteration is the ring clipped to
`[currentY, currentY + (maxY - currentY) / (count - i)]`. -/
theorem C3_bandSearch_spec (rem : Pgon) (cy t maxY : ℚ) (r : Nat) :
    (∀ (fuel : Nat) (low high : ℚ), low ≤ high →
      ∀ s, bsGo rem cy t fuel low high = some s →
        ∃ y, low ≤ y ∧ y ≤ high ∧ s = clipHorizontal rem cy y ∧
          |shoelaceArea (clipHorizontal rem cy y) - t| < (1 / 100) * t) ∧
    (∀ (fuel : Nat) (low high : ℚ), bsGo rem cy t (fuel + 1) low high =
      if |shoelaceArea (clipHorizontal rem cy ((low + high) / 2)) - t| < (1 / 100) * t
      then some (clipHorizontal rem cy ((low + high) / 2))
      else if shoelaceArea (clipHorizontal rem cy ((low + high) / 2)) < t
      then bsGo rem cy t fuel ((low + high) / 2) high
      else bsGo rem cy t fuel low ((low + high) / 2)) ∧
    (∀ low high : ℚ, bsGo rem cy t 0 low high = none) ∧
    (bsGo rem cy t 20 cy maxY = none →
      (horizPeelGo maxY t (r + 1) cy rem).head? =
        some (clipHorizontal rem cy (cy + (maxY - cy) / ((r + 2 : ℕ) : ℚ)))) := by
  refine ⟨bsGo_sound rem cy t, fun fuel low high => rfl, fun low high => rfl, fun hnone => ?_⟩
  simp only [horizPeelGo, List.head?_cons]
  rw [bandSearchSlice_of_none rem cy t maxY _ hnone]

lemma clip_seg (m : ℚ) (hm : 0 ≤ m) : clipHorizontal segPgon 0 m = [(0, 0), (1, 0), (0, 0)] := by
  have hm' : ¬ (m < 0) := not_lt.mpr hm
  norm_num [clipHorizontal, clipBody, closeRing, segPgon, List.range_succ, List.getD, hm, hm']

lemma bsGo_seg_none : ∀ (fuel : Nat) (low high : ℚ), 0 ≤ low → 0 < high →
    bsGo segPgon 0 50 fuel low high = none
  | 0, _, _, _, _ => rfl
  | fuel + 1, low, high, hl, hh => by
    have hmid : (0 : ℚ) ≤ (low + high) / 2 := by linarith
    have h0 : shoelaceArea ([((0 : ℚ), (0 : ℚ)), (1, 0), (0, 0)] : Pgon) = 0 := by
      norm_num [shoelaceArea, shoelaceSum, crossQ, List.range_succ, List.getD]
    simp only [bsGo]
    rw [clip_seg ((low + high) / 2) hmid, h0]
    rw [if_neg (by norm_num), if_pos (by norm_num)]
    exact bsGo_seg_none fuel ((low + high) / 2) high (by linarith) hh


lemma clip_sq_mid : clipHorizontal sqPgon 0 ((0 + 10 : ℚ) / 2) =
    [(0, 0), (10, 0), (10, 5), (0, 5), (0, 0)] := by
  norm_num [clipHorizontal, clipBody, closeRing, sqPgon, List.range_succ, List.getD]

lemma area_band_sq : shoelaceArea ([((0 : ℚ), (0 : ℚ)), (10, 0), (10, 5), (0, 5), (0, 0)] :
    Pgon) = 50 := by
  norm_num [shoelaceArea, shoelaceSum, crossQ, List.range_succ, List.getD]

lemma bsGo_sq : bsGo sqPgon 0 50 20 0 10 =
    some [((0 : ℚ), (0 : ℚ)), (10, 0), (10, 5), (0, 5), (0, 0)] := by
  rw [show (20 : Nat) = 19 + 1 from rfl, bsGo_step, clip_sq_mid, area_band_sq]
  rw [if_pos (show |(50 : ℚ) - 50| < (1 / 100) * 50 by norm_num)]

/-- Witness for C3: on the square the band search accepts the slice
`[0, 5]` at the very first iteration, and on the zero-area segment ring the
search exhausts all 20 iterations and the peel iteration uses the fallback
clip. -/
theorem C3_bandSearch_spec_witness :
    (∃ y, (0 : ℚ) ≤ y ∧ y ≤ 10 ∧
      ([((0 : ℚ), (0 : ℚ)), (10, 0), (10, 5), (0, 5), (0, 0)] : Pgon) =
        clipHorizontal sqPgon 0 y ∧
      |shoelaceArea (clipHorizontal sqPgon 0 y) - 50| < (1 / 100) * 50) ∧
    (horizPeelGo 1 50 (0 + 1) 0 segPgon).head? =
      some (clipHorizontal segPgon 0 (0 + (1 - 0) / ((0 + 2 : ℕ) : ℚ))) := by
  constructor
  · exact (C3_bandSearch_spec sqPgon 0 50 10 0).1 20 0 10 (by norm_num) _ bsGo_sq
  · exact (C3_bandSearch_spec segPgon 0 50 1 0).2.2.2 (bsGo_seg_none 20 0 1 le_rfl one_pos)

lemma foldl_extend_eq_flatMap {α β : Type} (h : List β → α → List β) (g : α → List β)
    (hh : ∀ acc i, h acc i = acc ++ g i) :
    ∀ (l : List α) (acc : List β), l.foldl h acc = acc ++ l.flatMap g
  | [], acc => by simp
  | x :: l', acc => by
    rw [List.foldl_cons, hh acc x, foldl_extend_eq_flatMap h g hh l' (acc ++ g x),
      List.flatMap_cons, List.append_assoc]

lemma clipBody_eq_flatMap (polygon : Pgon) (yMin yMax : ℚ) :
    clipBody polygon yMin yMax = (List.range polygon.length).flatMap (fun i =>
      (if yMin ≤ (polygon.getD i (0, 0)).2 ∧ (polygon.getD i (0, 0)).2 ≤ yMax
        then [polygon.getD i (0, 0)] else []) ++
      ((if ((polygon.getD i (0, 0)).2 < yMin ∧
            yMin < (polygon.getD ((i + 1) % polygon.length) (0, 0)).2) ∨
          (yMin < (polygon.getD i (0, 0)).2 ∧
            (polygon.getD ((i + 1) % polygon.length) (0, 0)).2 < yMin)
        then [((polygon.getD i (0, 0)).1 +
            ((yMin - (polygon.getD i (0, 0)).2) /
              ((polygon.getD ((i + 1) % polygon.length) (0, 0)).2 -
                (polygon.getD i (0, 0)).2)) *
            ((polygon.getD ((i + 1) % polygon.length) (0, 0)).1 -
              (polygon.getD i (0, 0)).1), yMin)] else []) ++
      (if ((polygon.getD i (0, 0)).2 < yMax ∧
            yMax < (polygon.getD ((i + 1) % polygon.length) (0, 0)).2) ∨
          (yMax < (polygon.getD i (0, 0)).2 ∧
            (polygon.getD ((i + 1) % polygon.length) (0, 0)).2 < yMax)
        then [((polygon.getD i (0, 0)).1 +
            ((yMax - (polygon.getD i (0, 0)).2) /
              ((polygon.getD ((i + 1) % polygon.length) (0, 0)).2 -
                (polygon.getD i (0, 0)).2)) *
            ((polygon.getD ((i + 1) % polygon.length) (0, 0)).1 -
              (polygon.getD i (0, 0)).1), yMax)] else []))) := by
  unfold clipBody
  rw [foldl_extend_eq_flatMap _ (fun i =>
      (if yMin ≤ (polygon.getD i (0, 0)).2 ∧ (polygon.getD i (0, 0)).2 ≤ yMax
        then [polygon.getD i (0, 0)] else []) ++
      ((if ((polygon.getD i (0, 0)).2 < yMin ∧
            yMin < (polygon.getD ((i + 1) % polygon.length) (0, 0)).2) ∨
          (yMin < (polygon.getD i (0, 0)).2 ∧
            (polygon.getD ((i + 1) % polygon.length) (0, 0)).2 < yMin)
        then [((polygon.getD i (0, 0)).1 +
            ((yMin - (polygon.getD i (0, 0)).2) /
              ((polygon.getD ((i + 1) % polygon.length) (0, 0)).2 -
                (polygon.getD i (0, 0)).2)) *
            ((polygon.getD ((i + 1) % polygon.length) (0, 0)).1 -
              (polygon.getD i (0, 0)).1), yMin)] else []) ++
      (if ((polygon.getD i (0, 0)).2 < yMax ∧
            yMax < (polygon.getD ((i + 1) % polygon.length) (0, 0)).2) ∨
          (yMax < (polygon.getD i (0, 0)).2 ∧
            (polygon.getD ((i + 1) % polygon.length) (0, 0)).2 < yMax)
        then [((polygon.getD i (0, 0)).1 +
            ((yMax - (polygon.getD i (0, 0)).2) /
              ((polygon.getD ((i + 1) % polygon.length) (0, 0)).2 -
                (polygon.getD i (0, 0)).2)) *
            ((polygon.getD ((i + 1) % polygon.length) (0, 0)).1 -
              (polygon.getD i (0, 0)).1), yMax)] else [])))
    (fun acc i => by dsimp only; split_ifs <;> simp), List.nil_append]

/-- C4 (amended): `clipHorizontal` is the closing of the concatenation, over
the edges `i` in order, of: the vertex `a_i` exactly when
`yMin ≤ a_i.y ≤ yMax`, then the `yMin` intersection point (with `y = yMin`
exactly and `x` by linear interpolation) exactly when one endpoint of the
edge is strictly below and the other strictly above `yMin`, then the same
for `yMax`; and the closing step appends the first point as last exactly when
the list is nonempty and its first and last points differ (an already-closed
ring is returned unchanged).  The original claim's insertion condition, with
one endpoint *at or above* the bound, is refuted by
`C4_clipHorizontal_spec_cex`. -/
theorem C4_clipHorizontal_spec (polygon : Pgon) (yMin yMax : ℚ) :
    clipHorizontal polygon yMin yMax =
      closeRing ((List.range polygon.length).flatMap (fun i =>
      (if yMin ≤ (polygon.getD i (0, 0)).2 ∧ (polygon.getD i (0, 0)).2 ≤ yMax
        then [polygon.getD i (0, 0)] else []) ++
      ((if ((polygon.getD i (0, 0)).2 < yMin ∧
            yMin < (polygon.getD ((i + 1) % polygon.length) (0, 0)).2) ∨
          (yMin < (polygon.getD i (0, 0)).2 ∧
            (polygon.getD ((i + 1) % polygon.length) (0, 0)).2 < yMin)
        then [((polygon.getD i (0, 0)).1 +
            ((yMin - (polygon.getD i (0, 0)).2) /
              ((polygon.getD ((i + 1) % polygon.length) (0, 0)).2 -
                (polygon.getD i (0, 0)).2)) *
            ((polygon.getD ((i + 1) % polygon.length) (0, 0)).1 -
              (polygon.getD i (0, 0)).1), yMin)] else []) ++
      (if ((polygon.getD i (0, 0)).2 < yMax ∧
            yMax < (polygon.getD ((i + 1) % polygon.length) (0, 0)).2) ∨
          (yMax < (polygon.getD i (0, 0)).2 ∧
            (polygon.getD ((i + 1) % polygon.length) (0, 0)).2 < yMax)
        then [((polygon.getD i (0, 0)).1 +
            ((yMax - (polygon.getD i (0, 0)).2) /
              ((polygon.getD ((i + 1) % polygon.length) (0, 0)).2 -
                (polygon.getD i (0, 0)).2)) *
            ((polygon.getD ((i + 1) % polygon.length) (0, 0)).1 -
              (polygon.getD i (0, 0)).1), yMax)] else [])))) ∧
    closeRing ([] : Pgon) = [] ∧
    (∀ (a : Point) (t : List Point), t.getLastD a = a → closeRing (a :: t) = a :: t) ∧
    (∀ (a : Point) (t : List Point), t.getLastD a ≠ a →
      closeRing (a :: t) = (a :: t) ++ [a]) := by
  refine ⟨congrArg closeRing (clipBody_eq_flatMap polygon yMin yMax), rfl, ?_, ?_⟩
  · intro a t ht
    show (if t.getLastD a = a then a :: t else (a :: t) ++ [a]) = a :: t
    rw [if_pos ht]
  · intro a t ht
    show (if t.getLastD a = a then a :: t else (a :: t) ++ [a]) = (a :: t) ++ [a]
    rw [if_neg ht]

/-- C4 counterexample: on the ring `benchPgon = [(0,0), (1,-1), (2,0)]` with
band `[0, 1]`, two edges cross `y = 0` with one endpoint strictly below and
the other exactly on the bound; the source inserts no intersection point for
them, while the claimed at-or-above rule inserts one per edge, so the claimed
clipping differs from the code's. -/
theorem C4_clipHorizontal_spec_cex :
    clipHorizontal benchPgon 0 1 = [(0, 0), (2, 0), (0, 0)] ∧
    clipHorizontalClaimed benchPgon 0 1 = [(0, 0), (0, 0), (2, 0), (2, 0), (0, 0)] ∧
    clipHorizontalClaimed benchPgon 0 1 ≠ clipHorizontal benchPgon 0 1 := by
  have h1 : clipHorizontal benchPgon 0 1 = [(0, 0), (2, 0), (0, 0)] := by
    norm_num [clipHorizontal, clipBody, closeRing, benchPgon, List.range_succ, List.getD]
  have h2 : clipHorizontalClaimed benchPgon 0 1 = [(0, 0), (0, 0), (2, 0), (2, 0), (0, 0)] := by
    norm_num [clipHorizontalClaimed, closeRing, benchPgon, List.range_succ, List.getD]
  refine ⟨h1, h2, ?_⟩
  rw [h1, h2]
  intro h
  have := congrArg List.length h
  simp at this

/-- Witness for C4: the closing step at concrete inputs — a one-point ring
is already closed and returned unchanged, a two-point open ring gets its
first point appended. -/
theorem C4_clipHorizontal_spec_witness :
    closeRing [((5 : ℚ), (5 : ℚ))] = [(5, 5)] ∧
    closeRing [((0 : ℚ), (0 : ℚ)), (1, 0)] = [(0, 0), (1, 0)] ++ [(0, 0)] :=
  ⟨(C4_clipHorizontal_spec [] 0 0).2.2.1 (5, 5) [] rfl,
   (C4_clipHorizontal_spec [] 0 0).2.2.2 (0, 0) [(1, 0)] (by norm_num)⟩

/-- C2 (code bug evidence): on the square with `count = 2` the accepted first
band is the clip to `[0, 5]`, but because `clipHorizontal` closes its output
(last point = first point), the `currentY` read from the slice's *last point*
is `0`, not the band's top boundary `5`; the remaining ring is re-clipped to
`[0, 10]` and the second returned piece is the whole square.  The bands
therefore do not have increasing minimum y and their y-ranges overlap,
contradicting the claim (and the source's own comment
`// Get maxY from last point`). -/
theorem C2_splitHorizontalEqualArea_bug :
    splitHorizontalEqualArea (.arr sqPgon) 2 =
      .ok [[(0, 0), (10, 0), (10, 5), (0, 5), (0, 0)],
        [(0, 0), (10, 0), (10, 10), (0, 10), (0, 0)]] ∧
    listMax (List.map Prod.snd [((0 : ℚ), (0 : ℚ)), (10, 0), (10, 5), (0, 5), (0, 0)]) = 5 ∧
    listMin (List.map Prod.snd [((0 : ℚ), (0 : ℚ)), (10, 0), (10, 10), (0, 10), (0, 0)]) = 0 ∧
    (([((0 : ℚ), (0 : ℚ)), (10, 0), (10, 5), (0, 5), (0, 0)] : Pgon).getLastD (0, 0)).2 = 0 := by
  have hval : ¬((2 : ℚ) ≤ 0 ∨ (2 : ℚ).den ≠ 1) := by norm_num
  have hmin : listMin (List.map (fun p => p.2) sqPgon) = 0 := by
    norm_num [listMin, sqPgon, min_def]
  have hmax : listMax (List.map (fun p => p.2) sqPgon) = 10 := by
    norm_num [listMax, sqPgon, max_def]
  have htarget : shoelaceArea sqPgon / (2 : ℚ) = 50 := by
    norm_num [shoelaceArea, shoelaceSum, crossQ, sqPgon, List.range_succ, List.getD]
  have hband : bandSearchSlice sqPgon 0 50 10 ((0 + 2 : ℕ) : ℚ) =
      [(0, 0), (10, 0), (10, 5), (0, 5), (0, 0)] := by
    unfold bandSearchSlice
    rw [bsGo_sq]
  have hclip10 : clipHorizontal sqPgon 0 10 =
      [(0, 0), (10, 0), (10, 10), (0, 10), (0, 0)] := by
    norm_num [clipHorizontal, clipBody, closeRing, sqPgon, List.range_succ, List.getD]
  refine ⟨?_, ?_, ?_, rfl⟩
  · simp only [splitHorizontalEqualArea]
    rw [if_neg hval]
    show Except.ok (horizPeelGo (listMax (List.map (fun p => p.2) sqPgon))
        (shoelaceArea sqPgon / 2) ((2 : ℚ).num.toNat - 1)
        (listMin (List.map (fun p => p.2) sqPgon)) sqPgon) = _
    rw [hmin, hmax, htarget]
    show Except.ok (horizPeelGo 10 50 (0 + 1) 0 sqPgon) = _
    simp only [horizPeelGo]
    rw [hband]
    show Except.ok ([((0 : ℚ), (0 : ℚ)), (10, 0), (10, 5), (0, 5), (0, 0)] ::
        horizPeelGo 10 50 0 0 (clipHorizontal sqPgon 0 10)) = _
    rw [hclip10]
    simp [horizPeelGo]
  · norm_num [listMax, max_def]
  · norm_num [listMin, min_def]
